import Mathlib

/-!
Verification of the covariance / precision estimation and model-selection
numerics of `mne/fixes.py` (empirical covariance estimator, log-likelihood,
tolerance-clamped log-determinant, dimensionality inference, Hermitian
pseudo-inverse), as a shallow embedding.

Modelling conventions:
* numpy arrays of shape `(m, n)` become `Matrix (Fin m) (Fin n) α`;
  exact arithmetic (`ℚ` for the pseudo-inverse so that results evaluate,
  `ℝ` for the code built on `log` / `gammaln`) replaces float arithmetic,
  with the float64 machine epsilon `2⁻⁵²` kept as an explicit constant.
* calls into external libraries (`np.linalg.eigh`, `scipy.linalg.eigvalsh`,
  `scipy.linalg.pinvh`, `scipy.linalg.svdvals`) are oracle parameters: the
  embedding receives the decomposition the library would return, and
  theorems carry the hypotheses that make it a genuine decomposition.
* `warnings.warn` becomes a boolean "warned" component of the result;
  `raise` becomes `Except.error`.
-/

namespace MneFixes

open Matrix

/-- float64 machine epsilon `np.finfo(np.float64).eps = 2⁻⁵²`, as a rational. -/
def epsQ : ℚ := 1 / 2 ^ 52

/-- float64 machine epsilon `np.finfo(np.float64).eps = 2⁻⁵²`, as a real. -/
noncomputable def epsR : ℝ := 1 / 2 ^ 52

/-- `np.max(np.abs(s))` over the eigenvalue vector `s`.  For a nonempty
vector this is the true maximum of the absolute values (all of which are
`≥ 0`, so folding from `0` is exact); numpy errors on an empty vector,
which the claims never exercise. -/
def absMax {n : ℕ} (s : Fin n → ℚ) : ℚ :=
  (List.ofFn fun i => |s i|).foldr max 0

/-- Shallow embedding of `pinvh(a, rtol=None)` from `mne/fixes.py`:

```
s, u = np.linalg.eigh(a)
if rtol is None:
    rtol = s.size * np.finfo(s.dtype).eps
maxS = np.max(np.abs(s))
above_cutoff = abs(s) > maxS * rtol
psigma_diag = 1.0 / s[above_cutoff]
u = u[:, above_cutoff]
return (u * psigma_diag) @ u.conj().T
```

`np.linalg.eigh` is an external library call, so the embedding takes the
eigendecomposition `(s, u)` it would return as inputs; conjugation is the
identity over the rationals.  The `(a, b)` entry of the result is the sum
over the retained eigenvalue indices `i` of `u a i * (1 / s i) * u b i`. -/
def pinvh {n : ℕ} (s : Fin n → ℚ) (u : Matrix (Fin n) (Fin n) ℚ)
    (rtol : Option ℚ) : Matrix (Fin n) (Fin n) ℚ :=
  let rt : ℚ := rtol.getD ((n : ℚ) * epsQ)
  let maxS : ℚ := absMax s
  Matrix.of fun a b =>
    ∑ i, if maxS * rt < |s i| then u a i * (1 / s i) * u b i else 0

/-- The centering step `X -= avg[:, None]` inside `np.cov`: subtract from
each row its mean over the observations (columns). -/
noncomputable def npCovCenter {n m : ℕ} (Y : Matrix (Fin n) (Fin m) ℝ) :
    Matrix (Fin n) (Fin m) ℝ :=
  Matrix.of fun a k => Y a k - (∑ j, Y a j) / m

/-- `np.cov(Y, bias=1)` for a 2-D array `Y` of shape `(n, m)` (rows are
variables, columns are observations), as used by `empirical_covariance`
via `np.cov(X.T, bias=1)`: subtract the row means, multiply the centered
array by its conjugate transpose, and scale by `1 / m` (`fact = N - ddof`
with `ddof = 0` for `bias=1`). -/
noncomputable def npCov {n m : ℕ} (Y : Matrix (Fin n) (Fin m) ℝ) :
    Matrix (Fin n) (Fin n) ℝ :=
  ((1 : ℝ) / m) • (npCovCenter Y * (npCovCenter Y)ᵀ)

/-- Shallow embedding of `empirical_covariance(X, assume_centered=False)`
for a 2-D input `X` of shape `(m, n)`:

```
if X.shape[0] == 1:
    warnings.warn("Only one sample available. ...")
if assume_centered:
    covariance = np.dot(X.T, X) / X.shape[0]
else:
    covariance = np.cov(X.T, bias=1)
if covariance.ndim == 0:
    covariance = np.array([[covariance]])
return covariance
```

The first component records whether the single-sample warning fired.
In the typed embedding the result always has shape `(n, n)`, so the
final scalar-to-1×1 rewrap (numpy collapses the `n = 1` covariance to a
0-d scalar) is the identity here. -/
noncomputable def empirical_covariance {m n : ℕ} (X : Matrix (Fin m) (Fin n) ℝ)
    (assume_centered : Bool) : Bool × Matrix (Fin n) (Fin n) ℝ :=
  (decide (m = 1),
    if assume_centered then (Xᵀ * X).map (fun x => x / m)
    else npCov Xᵀ)

/-- Shallow embedding of `empirical_covariance` applied to a 1-D input of
length `n`: the code reshapes it to a `(1, n)` single-row matrix
(`X = np.reshape(X, (1, -1))`) and proceeds as in the 2-D case. -/
noncomputable def empirical_covariance_1d {n : ℕ} (v : Fin n → ℝ)
    (assume_centered : Bool) : Bool × Matrix (Fin n) (Fin n) ℝ :=
  empirical_covariance (Matrix.of fun (_ : Fin 1) j => v j) assume_centered

/-- Fitted state of the `EmpiricalCovariance` estimator: the constructor
parameters together with the attributes `fit` assigns.  `precision_` is
`none` exactly when the Python attribute is `None`. -/
structure FittedCov (n : ℕ) where
  store_precision : Bool
  assume_centered : Bool
  location_ : Fin n → ℝ
  covariance_ : Matrix (Fin n) (Fin n) ℝ
  precision_ : Option (Matrix (Fin n) (Fin n) ℝ)

/-- `EmpiricalCovariance._set_covariance(covariance)`: store the covariance
and, if `store_precision`, the precision `scipy.linalg.pinvh(covariance)`;
otherwise set `precision_` to `None`.  `scipy.linalg.pinvh` is an external
library call, passed in as the oracle `pinvhO`. -/
noncomputable def set_covariance {n : ℕ}
    (pinvhO : Matrix (Fin n) (Fin n) ℝ → Matrix (Fin n) (Fin n) ℝ)
    (f : FittedCov n) (covariance : Matrix (Fin n) (Fin n) ℝ) : FittedCov n :=
  { f with
    covariance_ := covariance
    precision_ := if f.store_precision then some (pinvhO covariance) else none }

/-- `EmpiricalCovariance.fit(X)`: set `location_` to the zero vector when
`assume_centered` and to the column means `X.mean(0)` otherwise, compute
`empirical_covariance(X, assume_centered)`, and store it via
`_set_covariance`. -/
noncomputable def fit {m n : ℕ}
    (pinvhO : Matrix (Fin n) (Fin n) ℝ → Matrix (Fin n) (Fin n) ℝ)
    (store_precision assume_centered : Bool)
    (X : Matrix (Fin m) (Fin n) ℝ) : FittedCov n :=
  set_covariance pinvhO
    { store_precision := store_precision
      assume_centered := assume_centered
      location_ :=
        if assume_centered then fun _ => 0 else fun j => (∑ i, X i j) / m
      covariance_ := 0
      precision_ := none }
    (empirical_covariance X assume_centered).2

/-- `EmpiricalCovariance.get_precision()`: return the stored `precision_`
when `store_precision`, otherwise compute `scipy.linalg.pinvh(covariance_)`
on demand.  The method reads but never writes the estimator state, so the
state-passing embedding returns the state unchanged next to the value. -/
noncomputable def get_precision {n : ℕ}
    (pinvhO : Matrix (Fin n) (Fin n) ℝ → Matrix (Fin n) (Fin n) ℝ)
    (f : FittedCov n) : FittedCov n × Option (Matrix (Fin n) (Fin n) ℝ) :=
  (f, if f.store_precision then f.precision_ else some (pinvhO f.covariance_))

/-- `EmpiricalCovariance.mahalanobis(observations)`:

```
precision = self.get_precision()
centered_obs = observations - self.location_
mahalanobis_dist = np.sum(np.dot(centered_obs, precision) * centered_obs, 1)
```

One squared distance per observation row; `none` only in the degenerate
state where `get_precision` would return `None` (never after `fit`). -/
noncomputable def mahalanobis {n k : ℕ}
    (pinvhO : Matrix (Fin n) (Fin n) ℝ → Matrix (Fin n) (Fin n) ℝ)
    (f : FittedCov n) (observations : Matrix (Fin k) (Fin n) ℝ) :
    Option (Fin k → ℝ) :=
  (get_precision pinvhO f).2.map fun precision => fun r =>
    ∑ j, (∑ i, (observations r i - f.location_ i) * precision i j) *
      (observations r j - f.location_ j)

/-- `np.amax` of a vector of `scipy.linalg.svdvals` results (external call,
oracle-supplied); guarded `Finset.sup'` since numpy errors on `n = 0`. -/
noncomputable def amaxR {n : ℕ} (v : Fin n → ℝ) : ℝ :=
  if h : 0 < n then
    (Finset.univ.sup' (Finset.univ_nonempty_iff.mpr ⟨⟨0, h⟩⟩) v) else 0

/-- `EmpiricalCovariance.error_norm(comp_cov, norm, scaling, squared)`:

```
error = comp_cov - self.covariance_
if norm == "frobenius":
    squared_norm = np.sum(error**2)
elif norm == "spectral":
    squared_norm = np.amax(linalg.svdvals(np.dot(error.T, error)))
else:
    raise NotImplementedError("Only spectral and frobenius norms are implemented")
if scaling:
    squared_norm = squared_norm / error.shape[0]
if squared:
    result = squared_norm
else:
    result = np.sqrt(squared_norm)
```

`scipy.linalg.svdvals` is the oracle `svdvalsO`; the unsupported-norm
branch becomes `Except.error`. -/
noncomputable def error_norm {n : ℕ}
    (svdvalsO : Matrix (Fin n) (Fin n) ℝ → Fin n → ℝ)
    (f : FittedCov n) (comp_cov : Matrix (Fin n) (Fin n) ℝ)
    (norm : String) (scaling squared : Bool) : Except String ℝ :=
  let error := comp_cov - f.covariance_
  (if norm = "frobenius" then Except.ok (∑ i, ∑ j, error i j ^ 2)
   else if norm = "spectral" then
     Except.ok (amaxR (svdvalsO (errorᵀ * error)))
   else Except.error "Only spectral and frobenius norms are implemented").map
    fun squared_norm =>
      let scaled := if scaling then squared_norm / (n : ℝ) else squared_norm
      if squared then scaled else Real.sqrt scaled

/-- The eigenvalue part of `_logdet`: given the vector `vals` returned by
`scipy.linalg.eigvalsh(A)`,

```
tol = vals.max() * vals.size * np.finfo(np.float64).eps
vals = np.where(vals > tol, vals, tol)
return np.sum(np.log(vals))
```
-/
noncomputable def logdetVals {n : ℕ} (vals : Fin n → ℝ) : ℝ :=
  let tol : ℝ := amaxR vals * n * epsR
  ∑ i, Real.log (if tol < vals i then vals i else tol)

/-- Shallow embedding of `_logdet(A)` from `mne/fixes.py`:
`scipy.linalg.eigvalsh` is an external library call, supplied as the
oracle `eigvalshO`; the eigenvalues below the tolerance
`vals.max() * vals.size * eps` are clamped up to it before the logs are
summed. -/
noncomputable def _logdet {n : ℕ}
    (eigvalshO : Matrix (Fin n) (Fin n) ℝ → Fin n → ℝ)
    (A : Matrix (Fin n) (Fin n) ℝ) : ℝ :=
  logdetVals (eigvalshO A)

/-- Shallow embedding of `log_likelihood(emp_cov, precision)`:

```
p = precision.shape[0]
log_likelihood_ = -np.sum(emp_cov * precision) + _logdet(precision)
log_likelihood_ -= p * np.log(2 * np.pi)
log_likelihood_ /= 2.0
return log_likelihood_
```

`emp_cov * precision` is the elementwise product of two `(n, n)` arrays. -/
noncomputable def log_likelihood {n : ℕ}
    (eigvalshO : Matrix (Fin n) (Fin n) ℝ → Fin n → ℝ)
    (emp_cov precision : Matrix (Fin n) (Fin n) ℝ) : ℝ :=
  ((-(∑ i, ∑ j, emp_cov i j * precision i j) + _logdet eigvalshO precision) -
    (n : ℝ) * Real.log (2 * Real.pi)) / 2

/-- `scipy.special.gammaln` on the reals: the log of the (absolute value
of the) Gamma function; `Real.log` already coincides with `log |·|`. -/
noncomputable def gammaln (x : ℝ) : ℝ := Real.log (Real.Gamma x)

/-- The numerical body of `_assess_dimension_(spectrum, rank, n_samples,
n_features)` (everything after the rank guard), translated clause by
clause:

* `pu = -rank*log(2) + Σ_{i<rank} (gammaln((nf-i)/2) - log(π)*(nf-i)/2)`;
* `pl = -(Σ_{i<rank} log(spectrum[i])) * n_samples / 2` — the python slice
  `spectrum[:rank]` is `List.take rank`;
* `v = Σ spectrum[rank:] / (nf - rank)` and
  `pv = -log(v) * n_samples * (nf - rank) / 2`, except `v = 1`, `pv = 0`
  when `rank == nf`;
* `m = nf*rank - rank*(rank+1)/2`, `pp = log(2π)*(m+rank+1)/2`;
* `spectrum_` is `spectrum` with the slice `[rank, nf)` overwritten by `v`
  (the function `sMod`);
* `pa = Σ_{i<rank} Σ_{i<j<len} (log((spectrum[i]-spectrum[j]) *
  (1/spectrum_[j] - 1/spectrum_[i])) + log(n_samples))`;
* result `pu + pl + pv + pp - pa/2 - rank*log(n_samples)/2`.

Out-of-range list reads (impossible under the guard) default to `0`. -/
noncomputable def assessVal (spectrum : List ℝ)
    (rank n_samples n_features : ℕ) : ℝ :=
  let pu : ℝ := -(rank : ℝ) * Real.log 2 +
    ∑ i ∈ Finset.range rank,
      (gammaln (((n_features : ℝ) - (i : ℝ)) / 2) -
        Real.log Real.pi * (((n_features : ℝ) - (i : ℝ)) / 2))
  let pl : ℝ := -(((spectrum.take rank).map Real.log).sum) * (n_samples : ℝ) / 2
  let v : ℝ :=
    if rank = n_features then 1
    else (spectrum.drop rank).sum / ((n_features : ℝ) - (rank : ℝ))
  let pv : ℝ :=
    if rank = n_features then 0
    else -Real.log v * (n_samples : ℝ) * ((n_features : ℝ) - (rank : ℝ)) / 2
  let m : ℝ := (n_features : ℝ) * (rank : ℝ) - (rank : ℝ) * ((rank : ℝ) + 1) / 2
  let pp : ℝ := Real.log (2 * Real.pi) * (m + (rank : ℝ) + 1) / 2
  let sMod : ℕ → ℝ :=
    fun j => if rank ≤ j ∧ j < n_features then v else spectrum.getD j 0
  let pa : ℝ := ∑ i ∈ Finset.range rank, ∑ j ∈ Finset.Ico (i + 1) spectrum.length,
    (Real.log ((spectrum.getD i 0 - spectrum.getD j 0) *
        (1 / sMod j - 1 / sMod i)) + Real.log (n_samples : ℝ))
  pu + pl + pv + pp - pa / 2 - (rank : ℝ) * Real.log (n_samples : ℝ) / 2

/-- Shallow embedding of `_assess_dimension_`: the guard

```
if rank > len(spectrum):
    raise ValueError("The tested rank cannot exceed the rank of the dataset")
```

becomes `Except.error`; otherwise the score `assessVal` is returned. -/
noncomputable def _assess_dimension_ (spectrum : List ℝ)
    (rank n_samples n_features : ℕ) : Except String ℝ :=
  if spectrum.length < rank then
    Except.error "The tested rank cannot exceed the rank of the dataset"
  else Except.ok (assessVal spectrum rank n_samples n_features)

/-- Accumulator loop of `np.argmax`: walk the list keeping the index and
value of the current best, replacing it only on a strictly larger value
(so the first occurrence of the maximum wins). -/
noncomputable def idxMaxAux : List ℝ → ℕ → ℕ × ℝ → ℕ × ℝ
  | [], _, best => best
  | y :: ys, i, best =>
      if best.2 < y then idxMaxAux ys (i + 1) (i, y)
      else idxMaxAux ys (i + 1) best

/-- `np.argmax` on a list of reals: index of the first occurrence of the
maximum (junk value `0` on the empty list, where numpy raises). -/
noncomputable def idxMax : List ℝ → ℕ
  | [] => 0
  | x :: xs => (idxMaxAux xs 1 (0, x)).1

/-- The array `ll` built by `_infer_dimension_`: one score per candidate
rank in `range(n_spectrum)` where `n_spectrum = len(spectrum)`:

```
for rank in range(n_spectrum):
    ll[rank] = _assess_dimension_(spectrum, rank, n_samples, n_features)
```

Each such call passes the rank guard (`rank < len(spectrum)`), so the
scores are the `assessVal` values. -/
noncomputable def inferDimensionScores (spectrum : List ℝ)
    (n_samples n_features : ℕ) : List ℝ :=
  (List.range spectrum.length).map fun rank =>
    assessVal spectrum rank n_samples n_features

/-- Shallow embedding of `_infer_dimension_(spectrum, n_samples,
n_features)`: `ll.argmax()` over the scores array. -/
noncomputable def _infer_dimension_ (spectrum : List ℝ)
    (n_samples n_features : ℕ) : ℕ :=
  idxMax (inferDimensionScores spectrum n_samples n_features)

/-- Sanity lemma: every call `_infer_dimension_` makes passes the rank
guard, so `_assess_dimension_` returns `Except.ok` of the score there. -/
theorem assess_dimension_ok (spectrum : List ℝ)
    (rank n_samples n_features : ℕ) (h : rank ≤ spectrum.length) :
    _assess_dimension_ spectrum rank n_samples n_features =
      Except.ok (assessVal spectrum rank n_samples n_features) := by
  simp [_assess_dimension_, Nat.not_lt.mpr h]

/-- C3: `log_likelihood(emp_cov, precision)` returns exactly
`(-sum(emp_cov ⊙ precision) + logdet(precision) - p·ln(2π)) / 2` where
`p` is the side length of the precision matrix and `⊙` the elementwise
product (`logdet` being the module's tolerance-clamped `_logdet`). -/
theorem log_likelihood_formula {n : ℕ}
    (eigvalshO : Matrix (Fin n) (Fin n) ℝ → Fin n → ℝ)
    (emp_cov precision : Matrix (Fin n) (Fin n) ℝ) :
    log_likelihood eigvalshO emp_cov precision =
      (-(∑ i, ∑ j, emp_cov i j * precision i j) +
        _logdet eigvalshO precision - (n : ℝ) * Real.log (2 * Real.pi)) / 2 := by
  simp only [log_likelihood]

/-- C7: `error_norm` with `norm="frobenius"`, `squared=True`,
`scaling=False` computes the sum of squared elementwise differences
between `comp_cov` and the fitted covariance, and therefore returns `0`
when `comp_cov` is the fitted covariance itself. -/
theorem error_norm_self_zero {n : ℕ}
    (svdvalsO : Matrix (Fin n) (Fin n) ℝ → Fin n → ℝ) (f : FittedCov n) :
    (∀ comp_cov, error_norm svdvalsO f comp_cov "frobenius" false true =
      Except.ok (∑ i, ∑ j, (comp_cov i j - f.covariance_ i j) ^ 2)) ∧
    error_norm svdvalsO f f.covariance_ "frobenius" false true =
      Except.ok 0 := by
  constructor
  · intro comp_cov
    simp [error_norm, Except.map, Matrix.sub_apply]
  · simp [error_norm, Except.map]

/-- C10: fitting with `store_precision=False` sets `precision_` to `None`
(rather than leaving it unset), and `get_precision` then computes the
precision on demand as `pinvh(covariance_)` while leaving the whole
estimator state — `location_`, `covariance_` and `precision_` included —
unchanged. -/
theorem fit_store_false_precision {m n : ℕ}
    (pinvhO : Matrix (Fin n) (Fin n) ℝ → Matrix (Fin n) (Fin n) ℝ)
    (assume_centered : Bool) (X : Matrix (Fin m) (Fin n) ℝ) :
    (fit pinvhO false assume_centered X).precision_ = none ∧
    get_precision pinvhO (fit pinvhO false assume_centered X) =
      (fit pinvhO false assume_centered X,
        some (pinvhO (fit pinvhO false assume_centered X).covariance_)) := by
  constructor
  · simp [fit, set_covariance]
  · simp [get_precision, fit, set_covariance]

/-- C9: a 1-D input vector of length `n` is reshaped by
`empirical_covariance` into a `(1, n)` single-row matrix (its entries
become the `n` features of one sample), the single-sample warning fires,
and an `(n, n)` covariance matrix is still returned: the outer product
`vᵀ·v` when `assume_centered`, and (the single centered sample being
zero) the zero matrix otherwise. -/
theorem empirical_covariance_1d_spec {n : ℕ} (v : Fin n → ℝ) (ac : Bool) :
    (empirical_covariance_1d v ac).1 = true ∧
    empirical_covariance_1d v ac =
      empirical_covariance (Matrix.of fun (_ : Fin 1) j => v j) ac ∧
    (empirical_covariance_1d v true).2 = Matrix.of (fun a b => v a * v b) ∧
    (empirical_covariance_1d v false).2 = 0 := by
  refine ⟨rfl, rfl, ?_, ?_⟩
  · ext a b
    simp [empirical_covariance_1d, empirical_covariance, Matrix.mul_apply]
  · ext a b
    simp [empirical_covariance_1d, empirical_covariance, npCov, npCovCenter,
      Matrix.mul_apply]

/-- C6: `error_norm` rejects every norm name other than `"frobenius"` and
`"spectral"` with an explicit `NotImplementedError`, and
`_assess_dimension_` rejects every candidate rank exceeding the spectrum
length with an explicit `ValueError`; neither is silently ignored. -/
theorem invalid_option_errors :
    (∀ (n : ℕ) (svdvalsO : Matrix (Fin n) (Fin n) ℝ → Fin n → ℝ)
       (f : FittedCov n) (comp_cov : Matrix (Fin n) (Fin n) ℝ)
       (norm : String) (scaling squared : Bool),
       norm ≠ "frobenius" → norm ≠ "spectral" →
       error_norm svdvalsO f comp_cov norm scaling squared =
         Except.error "Only spectral and frobenius norms are implemented") ∧
    (∀ (spectrum : List ℝ) (rank n_samples n_features : ℕ),
       spectrum.length < rank →
       _assess_dimension_ spectrum rank n_samples n_features =
         Except.error "The tested rank cannot exceed the rank of the dataset") := by
  constructor
  · intro n svdvalsO f comp_cov norm scaling squared hf hs
    simp [error_norm, Except.map, hf, hs]
  · intro spectrum rank n_samples n_features h
    simp [_assess_dimension_, h]

/-- A throwaway fitted state used to instantiate `invalid_option_errors`
at concrete inputs. -/
noncomputable def trivialFitted : FittedCov 1 :=
  { store_precision := true
    assume_centered := true
    location_ := fun _ => 0
    covariance_ := 0
    precision_ := none }

theorem invalid_option_errors_witness :
    ("unsupported" ≠ "frobenius") ∧ ("unsupported" ≠ "spectral") ∧
    ([(1 : ℝ)].length < 2) ∧
    error_norm (fun _ => fun _ => 0) trivialFitted 0 "unsupported" false true =
      Except.error "Only spectral and frobenius norms are implemented" ∧
    _assess_dimension_ [(1 : ℝ)] 2 3 1 =
      Except.error "The tested rank cannot exceed the rank of the dataset" :=
  ⟨by decide, by decide, by simp,
    invalid_option_errors.1 1 (fun _ => fun _ => 0) trivialFitted 0
      "unsupported" false true (by decide) (by decide),
    invalid_option_errors.2 [(1 : ℝ)] 2 3 1 (by simp)⟩

/-- C8: for every fitted estimator, the squared Mahalanobis distance of a
single observation equal to the fitted location is `0` (the observation
centers to the zero vector, so `centeredᵗ · precision · centered = 0`),
returned as a length-1 sequence of per-row values. -/
theorem mahalanobis_location_zero {m n : ℕ}
    (pinvhO : Matrix (Fin n) (Fin n) ℝ → Matrix (Fin n) (Fin n) ℝ)
    (store_precision assume_centered : Bool) (X : Matrix (Fin m) (Fin n) ℝ) :
    mahalanobis pinvhO (fit pinvhO store_precision assume_centered X)
      (Matrix.of fun (_ : Fin 1) j =>
        (fit pinvhO store_precision assume_centered X).location_ j) =
      some (fun _ => 0) := by
  cases store_precision <;>
    simp [mahalanobis, get_precision, fit, set_covariance]

/-- C2: the fitted covariance is `Xᵗ·X / n_samples` when
`assume_centered`, and otherwise the population-normalized sample
covariance — entry `(a, b)` is the sum over samples of the products of
mean-centered entries, divided by `n_samples` (not `n_samples - 1`).
In the typed embedding the single-feature result is already a `1×1`
matrix, so numpy's scalar-to-`1×1` rewrap is the identity. -/
theorem fit_covariance_formula {m n : ℕ}
    (pinvhO : Matrix (Fin n) (Fin n) ℝ → Matrix (Fin n) (Fin n) ℝ)
    (store_precision : Bool) (X : Matrix (Fin m) (Fin n) ℝ) :
    (fit pinvhO store_precision true X).covariance_ =
      ((1 : ℝ) / (m : ℝ)) • (Xᵀ * X) ∧
    (fit pinvhO store_precision false X).covariance_ =
      Matrix.of fun a b =>
        (∑ k, (X k a - (∑ i, X i a) / m) * (X k b - (∑ i, X i b) / m)) / m := by
  constructor
  · ext a b
    simp [fit, set_covariance, empirical_covariance, Matrix.smul_apply,
      div_eq_inv_mul, one_div]
  · ext a b
    simp [fit, set_covariance, empirical_covariance, npCov, npCovCenter,
      Matrix.smul_apply, Matrix.mul_apply, div_eq_inv_mul, one_div]

/-- C4: `_logdet(A)` takes the eigenvalues of `A` (oracle `eigvalshO`),
clamps every eigenvalue not exceeding the tolerance
`max(eigenvalue) * n * machine_epsilon` up to that tolerance, and returns
the sum of the logs of the clamped eigenvalues; on the identity matrix
(all eigenvalues `1`) the result is `0` for every size `n < 2⁵²`, the
range in which the tolerance stays below `1`. -/
theorem logdet_clamped {n : ℕ}
    (eigvalshO : Matrix (Fin n) (Fin n) ℝ → Fin n → ℝ) (hn : 0 < n) :
    (∀ A, _logdet eigvalshO A = ∑ i, Real.log
        (if amaxR (eigvalshO A) * (n : ℝ) * epsR < eigvalshO A i then eigvalshO A i
         else amaxR (eigvalshO A) * (n : ℝ) * epsR)) ∧
    (eigvalshO 1 = (fun _ => 1) → n < 2 ^ 52 → _logdet eigvalshO 1 = 0) := by
  constructor
  · intro A
    rfl
  · intro hid h52
    have hcast : (n : ℝ) * epsR < 1 := by
      simp only [epsR]
      rw [mul_one_div, div_lt_one (by positivity)]
      exact_mod_cast h52
    have hmax : amaxR (fun _ : Fin n => (1 : ℝ)) = 1 := by
      simp [amaxR, hn, Finset.sup'_const]
    simp [_logdet, logdetVals, hid, hmax, hcast]

/-- A constant eigenvalue oracle reporting spectrum `(1, …, 1)`, used to
instantiate `logdet_clamped` on the identity matrix. -/
noncomputable def onesOracle (n : ℕ) : Matrix (Fin n) (Fin n) ℝ → Fin n → ℝ :=
  fun _ _ => 1

theorem logdet_clamped_witness :
    0 < 2 ∧ onesOracle 2 1 = (fun _ => 1) ∧ 2 < 2 ^ 52 ∧
    _logdet (onesOracle 2) 1 = 0 :=
  ⟨by decide, rfl, by norm_num,
    (logdet_clamped (onesOracle 2) (by decide)).2 rfl (by norm_num)⟩

/-- C4 (counterexample to the claim as stated): the identity-matrix
clause is not unconditional.  At size `n = 2⁵² + 1` the tolerance
`max(eigenvalue) * n * eps = 1 + 2⁻⁵²` exceeds every eigenvalue `1` of
the identity, so all of them are clamped *up* to the tolerance and
`_logdet` returns `(2⁵² + 1) · log(1 + 2⁻⁵²) > 0`, not `0`. -/
theorem logdet_identity_counterexample :
    _logdet (onesOracle (2 ^ 52 + 1)) 1 ≠ 0 := by
  have hn : 0 < 2 ^ 52 + 1 := Nat.succ_pos _
  have ho : onesOracle (2 ^ 52 + 1) 1 = (fun _ : Fin (2 ^ 52 + 1) => (1 : ℝ)) :=
    rfl
  have hmax : amaxR (fun _ : Fin (2 ^ 52 + 1) => (1 : ℝ)) = 1 := by
    simp [amaxR, hn, Finset.sup'_const]
  have htol : (1 : ℝ) < ((2 ^ 52 + 1 : ℕ) : ℝ) * epsR := by
    rw [epsR]
    push_cast
    rw [mul_one_div, lt_div_iff₀ (by positivity)]
    norm_num
  have hcond : ¬(((2 ^ 52 + 1 : ℕ) : ℝ) * epsR < (1 : ℝ)) :=
    not_lt.mpr (le_of_lt htol)
  simp only [_logdet, logdetVals, ho, hmax, one_mul, if_neg hcond,
    Finset.sum_const, Finset.card_univ, Fintype.card_fin, nsmul_eq_mul]
  apply ne_of_gt
  apply mul_pos
  · push_cast
    positivity
  · exact Real.log_pos htol

/-- When every eigenvalue clears the truncation cutoff, `pinvh`
reconstructs from all the eigenvectors: it returns
`u · diag(1/s) · uᵀ`. -/
theorem pinvh_no_truncation {n : ℕ} (s : Fin n → ℚ)
    (u : Matrix (Fin n) (Fin n) ℚ) (rt : Option ℚ)
    (hretain : ∀ i, absMax s * rt.getD ((n : ℚ) * epsQ) < |s i|) :
    pinvh s u rt = u * Matrix.diagonal (fun i => 1 / s i) * uᵀ := by
  ext a b
  simp only [pinvh, Matrix.of_apply]
  rw [Matrix.mul_apply]
  refine Finset.sum_congr rfl fun i _ => ?_
  rw [if_pos (hretain i), Matrix.mul_diagonal, Matrix.transpose_apply]

/-- C5 (amended): `pinvh(A, rtol)` with `rtol` defaulting to
`size(A) * machine_epsilon`, given the eigendecomposition
`A = u·diag(s)·uᵀ` with orthogonal `u`, returns a symmetric matrix; and
when `A` is symmetric positive definite with every eigenvalue above the
truncation cutoff `rtol * max|eigenvalue|` (so no eigenvalue is
truncated), the result is exactly the inverse of `A`. -/
theorem pinvh_spd_wellconditioned {n : ℕ} (s : Fin n → ℚ)
    (u A : Matrix (Fin n) (Fin n) ℚ) (rt : Option ℚ)
    (hdecomp : A = u * Matrix.diagonal s * uᵀ)
    (horth : u * uᵀ = 1)
    (hpos : ∀ i, 0 < s i)
    (hretain : ∀ i, absMax s * rt.getD ((n : ℚ) * epsQ) < |s i|) :
    pinvh s u rt * A = 1 ∧ (pinvh s u rt)ᵀ = pinvh s u rt := by
  have horth2 : uᵀ * u = 1 := Matrix.mul_eq_one_comm.mp horth
  constructor
  · rw [pinvh_no_truncation s u rt hretain, hdecomp]
    simp only [Matrix.mul_assoc]
    rw [← Matrix.mul_assoc uᵀ u, horth2, Matrix.one_mul,
      ← Matrix.mul_assoc (Matrix.diagonal fun i => 1 / s i) (Matrix.diagonal s),
      Matrix.diagonal_mul_diagonal]
    have hone : (fun i => 1 / s i * s i) = fun _ : Fin n => (1 : ℚ) :=
      funext fun i => one_div_mul_cancel (hpos i).ne'
    rw [hone, Matrix.diagonal_one, Matrix.one_mul, horth]
  · ext a b
    simp only [Matrix.transpose_apply, pinvh, Matrix.of_apply]
    refine Finset.sum_congr rfl fun i _ => ?_
    split <;> ring

theorem pinvh_spd_wellconditioned_witness :
    pinvh (![2] : Fin 1 → ℚ) 1 none * Matrix.diagonal (![2] : Fin 1 → ℚ) = 1 ∧
    (pinvh (![2] : Fin 1 → ℚ) 1 none)ᵀ = pinvh (![2] : Fin 1 → ℚ) 1 none :=
  pinvh_spd_wellconditioned ![2] 1 (Matrix.diagonal ![2]) none
    (by simp) (by simp)
    (by intro i; fin_cases i; norm_num)
    (by
      have hmax : absMax (![2] : Fin 1 → ℚ) = 2 := by
        simp [absMax, List.ofFn_succ]
      intro i
      fin_cases i
      rw [hmax]
      norm_num [epsQ])

/-- C5 (counterexample to the claim as stated): `diag(1, 2⁻⁵³)` is
symmetric positive definite — its eigendecomposition has `u = I` and
eigenvalues `(1, 2⁻⁵³)`, both positive — yet with the default
`rtol = 2·2⁻⁵²` the small eigenvalue sits below the cutoff
`2⁻⁵¹ · max|s|` and is truncated, so `pinvh` returns `diag(1, 0)`,
which is not the inverse of the matrix. -/
theorem pinvh_spd_counterexample :
    (0 : ℚ) < (![1, 1 / 2 ^ 53] : Fin 2 → ℚ) 0 ∧
    (0 : ℚ) < (![1, 1 / 2 ^ 53] : Fin 2 → ℚ) 1 ∧
    (1 : Matrix (Fin 2) (Fin 2) ℚ) * Matrix.diagonal ![1, 1 / 2 ^ 53] *
      (1 : Matrix (Fin 2) (Fin 2) ℚ)ᵀ = Matrix.diagonal ![1, 1 / 2 ^ 53] ∧
    pinvh (![1, 1 / 2 ^ 53] : Fin 2 → ℚ) 1 none *
      Matrix.diagonal ![1, 1 / 2 ^ 53] ≠ 1 := by
  have habs : |(1 : ℚ) / 9007199254740992| = 1 / 9007199254740992 :=
    abs_of_pos (by norm_num)
  have hmax : absMax (![1, 1 / 2 ^ 53] : Fin 2 → ℚ) = 1 := by
    simp [absMax, List.ofFn_succ]
    norm_num [habs]
  refine ⟨by norm_num, by norm_num, by simp, ?_⟩
  intro h
  have h11 := congrFun (congrFun h 1) 1
  rw [Matrix.mul_apply, Fin.sum_univ_two] at h11
  simp only [pinvh, Matrix.of_apply, Option.getD, hmax] at h11
  rw [Fin.sum_univ_two, Fin.sum_univ_two] at h11
  norm_num [Matrix.one_apply, Matrix.diagonal_apply, epsQ, habs] at h11

/-- The running best of the `argmax` scan bounds the accumulator value
and every scanned element from above. -/
theorem idxMaxAux_snd_le (l : List ℝ) :
    ∀ (i : ℕ) (b : ℕ × ℝ), b.2 ≤ (idxMaxAux l i b).2 ∧
      ∀ y ∈ l, y ≤ (idxMaxAux l i b).2 := by
  induction l with
  | nil =>
    intro i b
    exact ⟨le_refl _, fun y hy => absurd hy (List.not_mem_nil y)⟩
  | cons x xs ih =>
    intro i b
    by_cases h : b.2 < x
    · simp only [idxMaxAux, if_pos h]
      obtain ⟨h1, h2⟩ := ih (i + 1) (i, x)
      refine ⟨le_of_lt (lt_of_lt_of_le h h1), fun y hy => ?_⟩
      rcases List.mem_cons.mp hy with rfl | hy
      · exact h1
      · exact h2 y hy
    · simp only [idxMaxAux, if_neg h]
      obtain ⟨h1, h2⟩ := ih (i + 1) b
      refine ⟨h1, fun y hy => ?_⟩
      rcases List.mem_cons.mp hy with rfl | hy
      · exact le_trans (not_lt.mp h) h1
      · exact h2 y hy

/-- The `argmax` scan either keeps its starting accumulator or lands on an
actual element of the scanned list, with the matching index offset. -/
theorem idxMaxAux_spec (l : List ℝ) :
    ∀ (i : ℕ) (b : ℕ × ℝ), idxMaxAux l i b = b ∨
      ∃ j, j < l.length ∧ (idxMaxAux l i b).1 = i + j ∧
        (idxMaxAux l i b).2 = l.getD j 0 := by
  induction l with
  | nil => intro i b; exact Or.inl rfl
  | cons x xs ih =>
    intro i b
    by_cases h : b.2 < x
    · simp only [idxMaxAux, if_pos h]
      right
      rcases ih (i + 1) (i, x) with heq | ⟨j, hj, h1, h2⟩
      · exact ⟨0, Nat.succ_pos _, by simp [heq], by simp [heq]⟩
      · refine ⟨j + 1, by simpa using hj, ?_, ?_⟩
        · rw [h1]; omega
        · rw [h2, List.getD_cons_succ]
    · simp only [idxMaxAux, if_neg h]
      rcases ih (i + 1) b with heq | ⟨j, hj, h1, h2⟩
      · exact Or.inl heq
      · refine Or.inr ⟨j + 1, by simpa using hj, ?_, ?_⟩
        · rw [h1]; omega
        · rw [h2, List.getD_cons_succ]

/-- `np.argmax` of a nonempty list is an index into the list. -/
theorem idxMax_lt_length (l : List ℝ) (h : l ≠ []) : idxMax l < l.length := by
  cases l with
  | nil => exact absurd rfl h
  | cons x xs =>
    rcases idxMaxAux_spec xs 1 (0, x) with heq | ⟨j, hj, h1, _⟩
    · simp [idxMax, heq]
    · simp only [idxMax, h1, List.length_cons]
      omega

/-- The element at the `np.argmax` index dominates every list element. -/
theorem le_getD_idxMax (l : List ℝ) (h : l ≠ []) :
    ∀ y ∈ l, y ≤ l.getD (idxMax l) 0 := by
  cases l with
  | nil => exact absurd rfl h
  | cons x xs =>
    have hval : (x :: xs).getD (idxMax (x :: xs)) 0 =
        (idxMaxAux xs 1 (0, x)).2 := by
      rcases idxMaxAux_spec xs 1 (0, x) with heq | ⟨j, hj, h1, h2⟩
      · simp [idxMax, heq]
      · simp only [idxMax, h1]
        rw [Nat.add_comm, List.getD_cons_succ, h2]
    intro y hy
    rw [hval]
    rcases List.mem_cons.mp hy with rfl | hy
    · exact (idxMaxAux_snd_le xs 1 (0, y)).1
    · exact (idxMaxAux_snd_le xs 1 (0, x)).2 y hy

/-- Reading entry `r < n` of `(List.range n).map f` gives `f r`. -/
theorem getD_map_range (f : ℕ → ℝ) (n r : ℕ) (hr : r < n) :
    ((List.range n).map f).getD r 0 = f r := by
  rw [List.getD_eq_getElem?_getD, List.getElem?_map, List.getElem?_range hr]
  rfl

/-- C1 (counterexample to the claim as stated): on a spectrum of length
`n_features = 1`, `_infer_dimension_` builds its score array over
`range(len(spectrum))`, i.e. it evaluates exactly one candidate rank
(rank `0`) — not one score per rank in the closed range
`[0, n_features]`, which would be `n_features + 1 = 2` scores.  The
score of rank `n_features` is therefore never computed. -/
theorem infer_dimension_scores_counterexample :
    (inferDimensionScores [1] 5 1).length = 1 ∧
    (inferDimensionScores [1] 5 1).length ≠ 1 + 1 := by
  constructor <;> simp [inferDimensionScores]

/-- C1 (amended): for a spectrum of length `n_features`,
`_infer_dimension_` computes a log-evidence score for every candidate
rank `r` in `[0, n_features - 1]` (the code iterates over
`range(len(spectrum))`) and returns a rank in that range whose score is
maximal among all of them. -/
theorem infer_dimension_argmax (spectrum : List ℝ) (n_samples n_features : ℕ)
    (hlen : spectrum.length = n_features) (hpos : 0 < n_features) :
    _infer_dimension_ spectrum n_samples n_features < n_features ∧
    ∀ r < n_features, assessVal spectrum r n_samples n_features ≤
      assessVal spectrum (_infer_dimension_ spectrum n_samples n_features)
        n_samples n_features := by
  simp only [_infer_dimension_]
  have hslen : (inferDimensionScores spectrum n_samples n_features).length =
      n_features := by
    simp [inferDimensionScores, hlen]
  have hne : inferDimensionScores spectrum n_samples n_features ≠ [] := by
    intro h
    rw [h] at hslen
    simp at hslen
    omega
  have hk : idxMax (inferDimensionScores spectrum n_samples n_features) <
      n_features :=
    lt_of_lt_of_le (idxMax_lt_length _ hne) hslen.le
  have hkval : (inferDimensionScores spectrum n_samples n_features).getD
      (idxMax (inferDimensionScores spectrum n_samples n_features)) 0 =
      assessVal spectrum
        (idxMax (inferDimensionScores spectrum n_samples n_features))
        n_samples n_features := by
    exact getD_map_range _ _ _ (hlen ▸ hk)
  refine ⟨hk, fun r hr => ?_⟩
  have hr' : r < spectrum.length := hlen ▸ hr
  have hrval : (inferDimensionScores spectrum n_samples n_features).getD r 0 =
      assessVal spectrum r n_samples n_features :=
    getD_map_range _ _ _ hr'
  have hmem : (inferDimensionScores spectrum n_samples n_features).getD r 0 ∈
      inferDimensionScores spectrum n_samples n_features := by
    have hrs : r < (inferDimensionScores spectrum n_samples n_features).length := by
      omega
    rw [List.getD_eq_getElem _ 0 hrs]
    exact List.getElem_mem hrs
  have := le_getD_idxMax _ hne _ hmem
  rw [hrval, hkval] at this
  exact this

theorem infer_dimension_argmax_witness :
    ([(1 : ℝ)].length = 1) ∧ (0 < 1) ∧
    (_infer_dimension_ [1] 5 1 < 1 ∧
      ∀ r < 1, assessVal [1] r 5 1 ≤
        assessVal [1] (_infer_dimension_ [1] 5 1) 5 1) :=
  ⟨by simp, by decide, infer_dimension_argmax [1] 5 1 (by simp) (by decide)⟩

end MneFixes
